import Mathlib

/-!
Verification of the conservative-regridding pipeline of the hytest
repository (notebook `dataset_access/conus404_temporal_aggregation.ipynb`).

The pipeline is: Grid Polygonizer (`bounds_to_poly`) → Overlay Engine
(delegated to `geopandas.overlay`) → Weight Builder (`grid_cell_fraction`
plus the sparse unstack `weights_sparse`) → Regridder
(`apply_weights_matmul_sparse`).  Geometry is embedded over ℚ; arrays are
embedded as flat C-order buffers so that numpy `reshape` is the identity on
the buffer.
-/

set_option maxHeartbeats 1000000

namespace HyTest

/-- An Overlay Fragment: the intersection of one grid cell (identified by its
flattened cell id `cell`) with one region (identified by `region`), carrying
its area.  This is one row of the `overlay` GeoDataFrame produced by
`grid_df.overlay(regions_df, keep_geom_type=True)`. -/
structure Fragment (ρ : Type) where
  cell : ℕ
  region : ρ
  area : ℚ
deriving DecidableEq

/-- A Weight Entry `(cell id, region id, weight)`, one row of `df_weights`. -/
structure WeightEntry (ρ : Type) where
  cell : ℕ
  region : ρ
  weight : ℚ
deriving DecidableEq

variable {ρ : Type} [DecidableEq ρ]

/-- The total overlay area of region `r`: the pandas group sum
`overlay.geometry.area.groupby(overlay[region_name]) ... x.sum()`. -/
def regionTotal (frags : List (Fragment ρ)) (r : ρ) : ℚ :=
  ((frags.filter (fun f => f.region = r)).map (fun f => f.area)).sum

/-- The Weight Builder's normalization step, from the notebook line
`grid_cell_fraction = overlay.geometry.area.groupby(overlay[region_name]).transform(lambda x: x / x.sum())`:
each fragment (row) is assigned its area divided by the total area of its
region's group. -/
def grid_cell_fraction (frags : List (Fragment ρ)) : List (WeightEntry ρ) :=
  frags.map (fun f => ⟨f.cell, f.region, f.area / regionTotal frags f.region⟩)

/-- Sum of the weights of all Weight Entries belonging to region `r`. -/
def sumWeights (entries : List (WeightEntry ρ)) (r : ρ) : ℚ :=
  ((entries.filter (fun e => e.region = r)).map (fun e => e.weight)).sum

theorem filter_map_region (F : Fragment ρ → WeightEntry ρ)
    (hF : ∀ f, (F f).region = f.region) (l : List (Fragment ρ)) (r : ρ) :
    (l.map F).filter (fun e => e.region = r) =
      (l.filter (fun f => f.region = r)).map F := by
  induction l with
  | nil => rfl
  | cons a as ih =>
    by_cases h : a.region = r
    · simp [List.filter_cons, hF, h, ih]
    · simp [List.filter_cons, hF, h, ih]

theorem sum_map_div {α : Type} (l : List α) (g : α → ℚ) (S : ℚ) :
    (l.map (fun a => g a / S)).sum = (l.map g).sum / S := by
  induction l with
  | nil => simp
  | cons a as ih => simp [ih, div_add_div_same]

/-- C1: For every set of Overlay Fragments and every region that has at least
one fragment and positive total fragment area, the Weight Builder assigns each
fragment of that region the weight `area / regionTotal`, and the weights of
that region sum exactly to 1 (hence certainly within 1e-6 relative
tolerance). -/
theorem weights_sum_to_one (frags : List (Fragment ρ)) (r : ρ)
    (hne : frags.filter (fun f => f.region = r) ≠ [])
    (hpos : 0 < regionTotal frags r) :
    sumWeights (grid_cell_fraction frags) r = 1 := by
  have hS : regionTotal frags r ≠ 0 := ne_of_gt hpos
  unfold sumWeights grid_cell_fraction
  rw [filter_map_region _ (fun f => rfl), List.map_map]
  have hcong : ((frags.filter (fun f => f.region = r)).map
      ((fun e : WeightEntry ρ => e.weight) ∘
        (fun f : Fragment ρ =>
          (⟨f.cell, f.region, f.area / regionTotal frags f.region⟩ : WeightEntry ρ)))) =
      (frags.filter (fun f => f.region = r)).map
        (fun f => f.area / regionTotal frags r) := by
    refine List.map_congr_left (fun f hf => ?_)
    have : f.region = r := by
      have := List.mem_filter.mp hf
      exact of_decide_eq_true this.2
    simp [Function.comp, this]
  rw [hcong, sum_map_div]
  exact div_self hS

/-- Witness for C1 on a concrete overlay: two fragments of region `0` with
areas 1 and 3; their weights sum to 1. -/
theorem weights_sum_to_one_witness :
    ([⟨0, 0, 1⟩, ⟨1, 0, 3⟩] : List (Fragment ℕ)).filter (fun f => f.region = 0) ≠ [] ∧
    0 < regionTotal ([⟨0, 0, 1⟩, ⟨1, 0, 3⟩] : List (Fragment ℕ)) 0 ∧
    sumWeights (grid_cell_fraction ([⟨0, 0, 1⟩, ⟨1, 0, 3⟩] : List (Fragment ℕ))) 0 = 1 :=
  ⟨by simp, by norm_num [regionTotal],
    weights_sum_to_one [⟨0, 0, 1⟩, ⟨1, 0, 3⟩] 0 (by simp) (by norm_num [regionTotal])⟩

theorem mem_le_sum (l : List ℚ) (hnn : ∀ x ∈ l, 0 ≤ x) (x : ℚ) (hx : x ∈ l) :
    x ≤ l.sum := by
  induction l with
  | nil => cases hx
  | cons a as ih =>
    simp only [List.sum_cons]
    rcases List.mem_cons.mp hx with h | h
    · have h2 : 0 ≤ as.sum :=
        List.sum_nonneg (fun y hy => hnn y (List.mem_cons_of_mem _ hy))
      rw [h]
      linarith
    · have h1 := ih (fun y hy => hnn y (List.mem_cons_of_mem _ hy)) h
      have h0 : 0 ≤ a := hnn a (List.mem_cons_self _ _)
      linarith

/-- C8: For every overlay whose fragment areas are nonnegative and every
region with positive total fragment area, every Weight Entry of that region
produced by the Weight Builder has its weight in the closed interval
`[0, 1]`. -/
theorem weights_in_unit_interval (frags : List (Fragment ρ)) (r : ρ)
    (e : WeightEntry ρ) (he : e ∈ grid_cell_fraction frags) (her : e.region = r)
    (hnn : ∀ f ∈ frags, 0 ≤ f.area) (hpos : 0 < regionTotal frags r) :
    0 ≤ e.weight ∧ e.weight ≤ 1 := by
  obtain ⟨f, hf, rfl⟩ := List.mem_map.mp he
  have hfr : f.region = r := her
  subst hfr
  constructor
  · exact div_nonneg (hnn f hf) (le_of_lt hpos)
  · rw [div_le_one hpos]
    refine mem_le_sum _ ?_ _ ?_
    · intro x hxm
      obtain ⟨g, hg, rfl⟩ := List.mem_map.mp hxm
      exact hnn g (List.mem_of_mem_filter hg)
    · exact List.mem_map.mpr ⟨f, List.mem_filter.mpr ⟨hf, by simp⟩, rfl⟩

/-- Witness for C8: the entry for cell 0 of region 0 in a concrete overlay
(areas 1 and 3) has weight 1/4, which lies in `[0, 1]`. -/
theorem weights_in_unit_interval_witness :
    0 ≤ (⟨0, 0, 1/4⟩ : WeightEntry ℕ).weight ∧
    (⟨0, 0, 1/4⟩ : WeightEntry ℕ).weight ≤ 1 :=
  weights_in_unit_interval [⟨0, 0, 1⟩, ⟨1, 0, 3⟩] 0 ⟨0, 0, 1/4⟩
    (by norm_num [grid_cell_fraction, regionTotal]) rfl
    (by norm_num) (by norm_num [regionTotal])

/-! ## The Regridder

numpy/sparse arrays are embedded as a shape plus a flat C-order buffer
(`flat i` is the element at flat offset `i`); with this representation the
numpy `reshape` calls inside `apply_weights_matmul_sparse` are the identity
on the buffer, exactly as in numpy's C-order semantics. -/

/-- An n-dimensional array over ℚ: a shape and a flat C-order buffer. -/
structure NDArray where
  shape : List ℕ
  flat : ℕ → ℚ

/-- The Regridder, from the notebook's `apply_weights_matmul_sparse(weights, data)`:
`data` of shape `(n, dy, dx)` is reshaped to `(n, k)` with `k = dy*dx`;
`weights` of shape `(wy, wx, m)` is reshaped to `(k_, m)` with
`k_ = wy*wx`; the `assert k == k_` precondition failure is modelled as
`none`; otherwise the result is the matrix product of shape `(n, m)`. -/
def apply_weights_matmul_sparse (weights data : NDArray) : Option NDArray :=
  match data.shape, weights.shape with
  | [n, dy, dx], [wy, wx, m] =>
    if wy * wx = dy * dx then
      some ⟨[n, m], fun i =>
        ∑ c in Finset.range (dy * dx),
          data.flat (i / m * (dy * dx) + c) * weights.flat (c * m + i % m)⟩
    else none
  | _, _ => none

theorem sum_range_mul_split (a b : ℕ) (f : ℕ → ℚ) :
    ∑ c in Finset.range (a * b), f c =
      ∑ i in Finset.range a, ∑ j in Finset.range b, f (i * b + j) := by
  induction a with
  | zero => simp
  | succ a ih =>
    rw [Finset.sum_range_succ, ← ih, Nat.succ_mul, Finset.sum_range_add]

theorem flat_index_div {t r m : ℕ} (hr : r < m) : (t * m + r) / m = t := by
  have hm : 0 < m := Nat.zero_lt_of_lt hr
  rw [Nat.mul_comm t m, Nat.mul_add_div hm, Nat.div_eq_of_lt hr, Nat.add_zero]

theorem flat_index_mod {t r m : ℕ} (hr : r < m) : (t * m + r) % m = r := by
  rw [Nat.mul_comm t m, Nat.mul_add_mod, Nat.mod_eq_of_lt hr]

/-- C2: For every data array of shape `(n, dy, dx)` and Weight Matrix of
shape `(wy, wx, m)` whose flattened row dimension `wy*wx` equals `dy*dx`,
the Regridder returns a `(n, m)` array whose entry at `(t, r)` is the sum
over all flattened grid cells `c` of `data[t][c] * weight[c][r]`, which is
also the double sum over the `(row, column)` plane flattened in C order. -/
theorem regridder_is_matmul (weights data : NDArray) (n dy dx wy wx m : ℕ)
    (hd : data.shape = [n, dy, dx]) (hw : weights.shape = [wy, wx, m])
    (hk : wy * wx = dy * dx) (t r : ℕ) (hr : r < m) :
    ∃ out, apply_weights_matmul_sparse weights data = some out ∧
      out.shape = [n, m] ∧
      out.flat (t * m + r) =
        (∑ c in Finset.range (dy * dx),
          data.flat (t * (dy * dx) + c) * weights.flat (c * m + r)) ∧
      out.flat (t * m + r) =
        ∑ i in Finset.range dy, ∑ j in Finset.range dx,
          data.flat (t * (dy * dx) + (i * dx + j)) *
            weights.flat ((i * dx + j) * m + r) := by
  refine ⟨⟨[n, m], fun i =>
    ∑ c in Finset.range (dy * dx),
      data.flat (i / m * (dy * dx) + c) * weights.flat (c * m + i % m)⟩, ?_, rfl, ?_, ?_⟩
  · unfold apply_weights_matmul_sparse
    rw [hd, hw]
    simp [hk]
  · simp only [flat_index_div hr, flat_index_mod hr]
  · simp only [flat_index_div hr, flat_index_mod hr]
    rw [show (dy * dx) = dy * dx from rfl, sum_range_mul_split dy dx
      (fun c => data.flat (t * (dy * dx) + c) * weights.flat (c * m + r))]

/-- A concrete 1×1×2 data array (values 2 and 3) used by witnesses. -/
def dataW : NDArray := ⟨[1, 1, 2], fun i => if i = 0 then 2 else 3⟩

/-- A concrete 1×2×1 weight array (values 5 and 7) used by witnesses. -/
def weightsW : NDArray := ⟨[1, 2, 1], fun i => if i = 0 then 5 else 7⟩

/-- Witness for C2: regridding the concrete 1×1×2 array against the concrete
1×2×1 weights succeeds and its single entry is the matrix product. -/
theorem regridder_is_matmul_witness :
    ∃ out, apply_weights_matmul_sparse weightsW dataW = some out ∧
      out.shape = [1, 1] ∧
      out.flat (0 * 1 + 0) =
        (∑ c in Finset.range (1 * 2),
          dataW.flat (0 * (1 * 2) + c) * weightsW.flat (c * 1 + 0)) ∧
      out.flat (0 * 1 + 0) =
        ∑ i in Finset.range 1, ∑ j in Finset.range 2,
          dataW.flat (0 * (1 * 2) + (i * 2 + j)) *
            weightsW.flat ((i * 2 + j) * 1 + 0) :=
  regridder_is_matmul weightsW dataW 1 1 2 1 2 1 rfl rfl rfl 0 0 (by norm_num)

/-- C3: the Regridder hits the `assert k == k_` precondition failure exactly
when the flattened spatial dimension of the data (`dy*dx`) does not equal the
Weight Matrix's flattened row dimension (`wy*wx`), and succeeds otherwise. -/
theorem regridder_shape_guard (weights data : NDArray) (n dy dx wy wx m : ℕ)
    (hd : data.shape = [n, dy, dx]) (hw : weights.shape = [wy, wx, m]) :
    apply_weights_matmul_sparse weights data = none ↔ wy * wx ≠ dy * dx := by
  unfold apply_weights_matmul_sparse
  rw [hd, hw]
  by_cases h : wy * wx = dy * dx <;> simp [h]

/-- A concrete 1×2×2 data array of zeros used by the C3 witness. -/
def dataMismatch : NDArray := ⟨[1, 2, 2], fun _ => 0⟩

/-- A concrete 1×3×1 weight array of zeros used by the C3 witness. -/
def weightsMismatch : NDArray := ⟨[1, 3, 1], fun _ => 0⟩

/-- Witness for C3: a 2×2 spatial plane against a 3-row weight matrix is
rejected (`none`), since `1*3 ≠ 2*2`. -/
theorem regridder_shape_guard_witness :
    apply_weights_matmul_sparse weightsMismatch dataMismatch = none ↔ 1 * 3 ≠ 2 * 2 :=
  regridder_shape_guard weightsMismatch dataMismatch 1 2 2 1 3 1 rfl rfl

/-- Elementwise sum of two arrays (same shape as the first operand). -/
def addArr (A B : NDArray) : NDArray := ⟨A.shape, fun i => A.flat i + B.flat i⟩

/-- Elementwise scalar multiple of an array. -/
def smulArr (c : ℚ) (A : NDArray) : NDArray := ⟨A.shape, fun i => c * A.flat i⟩

/-- C10: For a fixed Weight Matrix the Regridder is linear in the data:
regridding `A + B` gives the elementwise sum of the two regridded results,
and regridding `c·A` gives `c` times the regridded result for `A`. -/
theorem regridder_linear (W A B : NDArray) (c : ℚ) (n dy dx wy wx m : ℕ)
    (hA : A.shape = [n, dy, dx]) (hB : B.shape = [n, dy, dx])
    (hW : W.shape = [wy, wx, m]) (hk : wy * wx = dy * dx) :
    ∃ oA oB oAB oC,
      apply_weights_matmul_sparse W A = some oA ∧
      apply_weights_matmul_sparse W B = some oB ∧
      apply_weights_matmul_sparse W (addArr A B) = some oAB ∧
      apply_weights_matmul_sparse W (smulArr c A) = some oC ∧
      (∀ i, oAB.flat i = oA.flat i + oB.flat i) ∧
      (∀ i, oC.flat i = c * oA.flat i) := by
  refine ⟨⟨[n, m], fun i => ∑ cc in Finset.range (dy * dx),
      A.flat (i / m * (dy * dx) + cc) * W.flat (cc * m + i % m)⟩,
    ⟨[n, m], fun i => ∑ cc in Finset.range (dy * dx),
      B.flat (i / m * (dy * dx) + cc) * W.flat (cc * m + i % m)⟩,
    ⟨[n, m], fun i => ∑ cc in Finset.range (dy * dx),
      (addArr A B).flat (i / m * (dy * dx) + cc) * W.flat (cc * m + i % m)⟩,
    ⟨[n, m], fun i => ∑ cc in Finset.range (dy * dx),
      (smulArr c A).flat (i / m * (dy * dx) + cc) * W.flat (cc * m + i % m)⟩,
    ?_, ?_, ?_, ?_, ?_, ?_⟩
  · unfold apply_weights_matmul_sparse
    rw [hA, hW]
    simp [hk]
  · unfold apply_weights_matmul_sparse
    rw [hB, hW]
    simp [hk]
  · unfold apply_weights_matmul_sparse
    rw [show (addArr A B).shape = A.shape from rfl, hA, hW]
    simp [hk]
  · unfold apply_weights_matmul_sparse
    rw [show (smulArr c A).shape = A.shape from rfl, hA, hW]
    simp [hk]
  · intro i
    simp only [addArr, add_mul, Finset.sum_add_distrib]
  · intro i
    simp only [smulArr, Finset.mul_sum, mul_assoc]

/-- Witness for C10: linearity of the Regridder at the concrete 1×1×2 data
(used with itself as the second summand) against the concrete weights. -/
theorem regridder_linear_witness :
    ∃ oA oB oAB oC,
      apply_weights_matmul_sparse weightsW dataW = some oA ∧
      apply_weights_matmul_sparse weightsW dataW = some oB ∧
      apply_weights_matmul_sparse weightsW (addArr dataW dataW) = some oAB ∧
      apply_weights_matmul_sparse weightsW (smulArr 2 dataW) = some oC ∧
      (∀ i, oAB.flat i = oA.flat i + oB.flat i) ∧
      (∀ i, oC.flat i = 2 * oA.flat i) :=
  regridder_linear weightsW dataW dataW 2 1 1 2 1 2 1 rfl rfl rfl rfl

/-! ## The Grid Polygonizer

The notebook's `bounds_to_poly(x_bounds, y_bounds)` receives a pair of
2-element bound arrays (produced by `grid.cf.add_bounds`, whose `bounds`
core dimension has length 2) and returns a shapely `Polygon` from four
vertices, with no validation of any kind. -/

/-- The Grid Polygonizer `bounds_to_poly`, verbatim from the notebook: the
quadrilateral ring `(x0, y0), (x0, y1), (x1, y1), (x1, y0)`. -/
def bounds_to_poly (x_bounds y_bounds : ℚ × ℚ) : List (ℚ × ℚ) :=
  [(x_bounds.1, y_bounds.1),
   (x_bounds.1, y_bounds.2),
   (x_bounds.2, y_bounds.2),
   (x_bounds.2, y_bounds.1)]

/-- Shoelace cross term `x_p · y_q − x_q · y_p`. -/
def crossTerm (p q : ℚ × ℚ) : ℚ := p.1 * q.2 - q.1 * p.2

/-- Sum of shoelace cross terms along a vertex list, closing back to
`first`. -/
def cycleCross (first : ℚ × ℚ) : List (ℚ × ℚ) → ℚ
  | [] => 0
  | [q] => crossTerm q first
  | q :: r :: rest => crossTerm q r + cycleCross first (r :: rest)

/-- Twice the signed (shoelace) area of a closed polygon ring. -/
def signedArea2 : List (ℚ × ℚ) → ℚ
  | [] => 0
  | p :: rest => cycleCross p (p :: rest)

/-- C9: `bounds_to_poly` is total: for every pair of 2-element bounds —
monotonic or not, degenerate or not — it returns the quadrilateral ring with
vertices in the fixed order (a clockwise ring for monotonic bounds), whose
doubled signed area is `−2·(x1−x0)·(y1−y0)`; in particular degenerate bounds
(`x0 = x1` or `y0 = y1`) silently produce a zero-area polygon. -/
theorem bounds_to_poly_total (xb yb : ℚ × ℚ) :
    bounds_to_poly xb yb =
      [(xb.1, yb.1), (xb.1, yb.2), (xb.2, yb.2), (xb.2, yb.1)] ∧
    signedArea2 (bounds_to_poly xb yb) =
      -(2 * ((xb.2 - xb.1) * (yb.2 - yb.1))) := by
  refine ⟨rfl, ?_⟩
  simp only [bounds_to_poly, signedArea2, cycleCross, crossTerm]
  ring

/-- Counterexample to C5: at the degenerate bounds `x_bounds = (1, 1)`,
`y_bounds = (0, 2)` the Grid Polygonizer does not fail with a validation
error: it returns the (degenerate, zero-area) quadrilateral, and at the
non-monotonic bounds `x_bounds = (2, 1)` it likewise returns a quadrilateral
(of negative orientation) instead of failing. -/
theorem bounds_to_poly_no_validation_cex :
    bounds_to_poly (1, 1) (0, 2) = [(1, 0), (1, 2), (1, 2), (1, 0)] ∧
    signedArea2 (bounds_to_poly (1, 1) (0, 2)) = 0 ∧
    bounds_to_poly (2, 1) (0, 3) = [(2, 0), (2, 3), (1, 3), (1, 0)] ∧
    signedArea2 (bounds_to_poly (2, 1) (0, 3)) = 6 := by
  refine ⟨rfl, ?_, rfl, ?_⟩ <;>
    simp only [bounds_to_poly, signedArea2, cycleCross, crossTerm] <;> norm_num

/-- C5 (amended): for malformed bounds the Grid Polygonizer does not raise a
validation error; it totally returns the fixed quadrilateral, which for
degenerate bounds (`x0 = x1` or `y0 = y1`) has zero signed area and for
non-monotonic `x` bounds (with monotonic `y` bounds) has its ring orientation
flipped relative to the well-formed case — a silently produced
degenerate/inverted polygon. -/
theorem bounds_to_poly_malformed (xb yb : ℚ × ℚ) :
    ((xb.1 = xb.2 ∨ yb.1 = yb.2) → signedArea2 (bounds_to_poly xb yb) = 0) ∧
    (xb.2 < xb.1 → yb.1 < yb.2 → 0 < signedArea2 (bounds_to_poly xb yb)) := by
  have harea : signedArea2 (bounds_to_poly xb yb) =
      -(2 * ((xb.2 - xb.1) * (yb.2 - yb.1))) := (bounds_to_poly_total xb yb).2
  constructor
  · rintro (h | h) <;> rw [harea, h] <;> ring
  · intro hx hy
    rw [harea]
    have h1 : xb.2 - xb.1 < 0 := by linarith
    have h2 : 0 < yb.2 - yb.1 := by linarith
    nlinarith

/-- Witness for the amended C5 at concrete malformed bounds. -/
theorem bounds_to_poly_malformed_witness :
    signedArea2 (bounds_to_poly (1, 1) (0, 2)) = 0 ∧
    0 < signedArea2 (bounds_to_poly (2, 1) (0, 3)) :=
  ⟨(bounds_to_poly_malformed (1, 1) (0, 2)).1 (Or.inl rfl),
   (bounds_to_poly_malformed (2, 1) (0, 3)).2 (by norm_num) (by norm_num)⟩

/-! ## The sparse Weight Matrix

`df_weights` (the Weight Entries) is unstacked into the sparse array
`weights_sparse = ds_weights.unstack(sparse=True, fill_value=0.).weights`
with dims `(y, x, region)`.  The region axis is derived from the MultiIndex
of the entries themselves: only regions with at least one entry get a label
(and hence a column); among the labelled pairs, any `(cell, region)` pair
without a Weight Entry is an implicit zero (`fill_value`). -/

/-- The value of the unstacked Weight Matrix at `(cell c, region r)`: the sum
of the weights of the entries for that pair (zero — the `fill_value` — when
there is none). -/
def weightOf (entries : List (WeightEntry ρ)) (c : ℕ) (r : ρ) : ℚ :=
  ((entries.filter (fun e => e.cell = c ∧ e.region = r)).map (fun e => e.weight)).sum

/-- The labels of the unstacked region axis: the distinct regions occurring
among the Weight Entries, exactly as `unstack` derives the axis from the
MultiIndex levels.  A region with no entries gets no label. -/
def regionLabels : List (WeightEntry ρ) → List ρ
  | [] => []
  | e :: es =>
    if e.region ∈ regionLabels es then regionLabels es
    else e.region :: regionLabels es

/-- Label-based lookup of a region's position on an axis, as in the
notebook's `var_regridded.sel(name=...)`: `none` models the KeyError raised
for a label that is not on the axis. -/
def selRegion : List ρ → ρ → Option ℕ
  | [], _ => none
  | a :: as, r => if a = r then some 0 else (selRegion as r).map (fun i => i + 1)

/-- The sparse Weight Matrix `weights_sparse` as an `(ny, nx, m)` array with
`m` the number of distinct region labels among the entries (the unstacked
region axis): flat C-order entry `c * m + j` holds the weight of flattened
cell `c` for the `j`-th region label. -/
def weightsNDArray (entries : List (WeightEntry ρ)) (ny nx : ℕ) : NDArray :=
  ⟨[ny, nx, (regionLabels entries).length], fun idx =>
    match (regionLabels entries).get? (idx % (regionLabels entries).length) with
    | some r => weightOf entries (idx / (regionLabels entries).length) r
    | none => 0⟩

theorem regionLabels_not_mem (entries : List (WeightEntry ρ)) (r : ρ)
    (h : ∀ e ∈ entries, e.region ≠ r) : r ∉ regionLabels entries := by
  induction entries with
  | nil => simp [regionLabels]
  | cons e es ih =>
    have hr := h e (List.mem_cons_self _ _)
    have ih' := ih (fun x hx => h x (List.mem_cons_of_mem _ hx))
    simp only [regionLabels]
    by_cases hc : e.region ∈ regionLabels es
    · rw [if_pos hc]
      exact ih'
    · rw [if_neg hc]
      intro hmem
      rcases List.mem_cons.mp hmem with h1 | h1
      · exact hr h1.symm
      · exact ih' h1

theorem selRegion_not_mem (labels : List ρ) (r : ρ) (h : r ∉ labels) :
    selRegion labels r = none := by
  induction labels with
  | nil => rfl
  | cons a as ih =>
    have ha : ¬a = r := fun he => h (he ▸ List.mem_cons_self a as)
    have ih' := ih (fun hm => h (List.mem_cons_of_mem a hm))
    simp only [selRegion]
    rw [if_neg ha, ih']
    rfl

theorem apply_weights_eval (weights data : NDArray) (n dy dx wy wx m : ℕ)
    (hd : data.shape = [n, dy, dx]) (hw : weights.shape = [wy, wx, m])
    (hk : wy * wx = dy * dx) :
    apply_weights_matmul_sparse weights data =
      some ⟨[n, m], fun i => ∑ c in Finset.range (dy * dx),
        data.flat (i / m * (dy * dx) + c) * weights.flat (c * m + i % m)⟩ := by
  unfold apply_weights_matmul_sparse
  rw [hd, hw]
  simp [hk]

/-- Concrete inputs for C4: one fragment for region `0`; region `1` has
none. -/
def fragsC4 : List (Fragment ℕ) := [⟨0, 0, 1⟩]

/-- A concrete 1×1×1 data array (value 5) for C4. -/
def dataC4 : NDArray := ⟨[1, 1, 1], fun _ => 5⟩

/-- Counterexample to C4 as stated: for the overlay `fragsC4` (fragments for
region `0` only), the zero-coverage region `1` does not get an all-zero
Weight Matrix column and an all-zero output row — the unstacked region axis
is just `[0]`, so the matrix has a single column (shape `[1, 1, 1]`), region
`1` has no column at all, and selecting region `1` on the region axis fails
(`none`, the KeyError) instead of returning zeros. -/
theorem zero_coverage_cex :
    regionLabels (grid_cell_fraction fragsC4) = [0] ∧
    (1 : ℕ) ∉ regionLabels (grid_cell_fraction fragsC4) ∧
    (weightsNDArray (grid_cell_fraction fragsC4) 1 1).shape = [1, 1, 1] ∧
    selRegion (regionLabels (grid_cell_fraction fragsC4)) 1 = none := by
  have hlab : regionLabels (grid_cell_fraction fragsC4) = [0] := by
    simp [fragsC4, grid_cell_fraction, regionLabels]
  refine ⟨hlab, ?_, ?_, ?_⟩
  · rw [hlab]
    simp
  · simp [weightsNDArray, hlab]
  · rw [hlab]
    rfl

/-- C4 (amended): a region `r` with no Overlay Fragments raises no error and
produces no Weight Entries; but because `unstack` derives the region axis
from the entries, `r` receives no Weight Matrix column at all (it is not
among the region labels), and the regridded output — whose region axis is
that of the Weight Matrix — omits `r` entirely: label selection fails
(`none`, a KeyError) rather than yielding an all-zero series. -/
theorem zero_coverage_region_omitted (frags : List (Fragment ρ)) (r : ρ)
    (data : NDArray) (n dy dx ny nx : ℕ)
    (hno : ∀ f ∈ frags, f.region ≠ r)
    (hd : data.shape = [n, dy, dx])
    (hk : ny * nx = dy * dx) :
    ((grid_cell_fraction frags).filter (fun e => e.region = r) = []) ∧
    r ∉ regionLabels (grid_cell_fraction frags) ∧
    selRegion (regionLabels (grid_cell_fraction frags)) r = none ∧
    ∃ out, apply_weights_matmul_sparse
        (weightsNDArray (grid_cell_fraction frags) ny nx) data = some out ∧
      out.shape = [n, (regionLabels (grid_cell_fraction frags)).length] := by
  have hentries : ∀ e ∈ grid_cell_fraction frags, e.region ≠ r := by
    intro e he
    obtain ⟨f, hf, rfl⟩ := List.mem_map.mp he
    exact hno f hf
  have hfilter : (grid_cell_fraction frags).filter (fun e => e.region = r) = [] := by
    rw [List.filter_eq_nil_iff]
    intro e he
    simpa using hentries e he
  have hnotmem : r ∉ regionLabels (grid_cell_fraction frags) :=
    regionLabels_not_mem _ _ hentries
  refine ⟨hfilter, hnotmem, selRegion_not_mem _ _ hnotmem,
    ⟨[n, (regionLabels (grid_cell_fraction frags)).length], fun i =>
      ∑ c in Finset.range (dy * dx),
        data.flat (i / (regionLabels (grid_cell_fraction frags)).length * (dy * dx) + c) *
          (weightsNDArray (grid_cell_fraction frags) ny nx).flat
            (c * (regionLabels (grid_cell_fraction frags)).length +
              i % (regionLabels (grid_cell_fraction frags)).length)⟩,
    apply_weights_eval _ data n dy dx ny nx _ hd rfl hk, rfl⟩

/-- Witness for the amended C4 at the concrete overlay `fragsC4`: region `1`
has no entries, no label, failing selection, and the Regridder still
succeeds on the one-column Weight Matrix. -/
theorem zero_coverage_region_omitted_witness :
    ((grid_cell_fraction fragsC4).filter (fun e => e.region = 1) = []) ∧
    (1 : ℕ) ∉ regionLabels (grid_cell_fraction fragsC4) ∧
    selRegion (regionLabels (grid_cell_fraction fragsC4)) 1 = none ∧
    ∃ out, apply_weights_matmul_sparse
        (weightsNDArray (grid_cell_fraction fragsC4) 1 1) dataC4 = some out ∧
      out.shape = [1, (regionLabels (grid_cell_fraction fragsC4)).length] :=
  zero_coverage_region_omitted fragsC4 1 dataC4 1 1 1 1 1
    (by intro f hf; fin_cases hf; simp [fragsC4]) rfl rfl

/-! ## The Overlay Engine (modelled)

The notebook delegates the overlay wholesale to
`overlay = grid_df.overlay(regions_df, keep_geom_type=True)` — geopandas
library code that is not part of this repository.  Following the spec's
contract for the Overlay Engine (pairwise geometric intersection of grid
cells and regions in a common area-preserving CRS, discarding zero-area
results), it is modelled here for a rectilinear grid given by per-axis
bound arrays and axis-aligned rectangular regions. -/

/-- An axis-aligned rectangular region `[x0, x1] × [y0, y1]`. -/
structure Rect where
  x0 : ℚ
  x1 : ℚ
  y0 : ℚ
  y1 : ℚ
deriving DecidableEq

/-- Length of the intersection of the intervals `[a, b]` and `[l, h]`
(clamped at 0 for empty intersections). -/
def seg (a b l h : ℚ) : ℚ := max 0 (min b h - max a l)

/-- The consecutive-pair cell segments of a per-axis bounds array. -/
def segments (bounds : List ℚ) : List (ℚ × ℚ) := bounds.zip bounds.tail

/-- Modelled from the spec: the Overlay Engine — in the source the single
geopandas library call `grid_df.overlay(regions_df, keep_geom_type=True)`,
whose implementation is not part of this repository — intersects every grid
cell with the given region and discards zero-area results.  For the
rectilinear grid with x-bounds `xs` and y-bounds `ys`, cell `(i, j)` (flat id
`i * nx + j`, C order as in the notebook's `stack(point=(y, x))`) meets the
rectangle `R` in a rectangle of area
`seg ys_i ys_(i+1) R.y0 R.y1 * seg xs_j xs_(j+1) R.x0 R.x1`. -/
def regionFragments (xs ys : List ℚ) (name : ρ) (R : Rect) : List (Fragment ρ) :=
  ((segments ys).enum.flatMap fun iy =>
    (segments xs).enum.map fun jx =>
      ⟨iy.1 * (segments xs).length + jx.1, name,
        seg iy.2.1 iy.2.2 R.y0 R.y1 * seg jx.2.1 jx.2.2 R.x0 R.x1⟩).filter
    fun f => f.area ≠ 0

/-- Modelled from the spec: the full overlay of the grid against a list of
named regions, one `regionFragments` batch per region. -/
def overlayRect (xs ys : List ℚ) (regions : List (ρ × Rect)) : List (Fragment ρ) :=
  regions.flatMap fun pr => regionFragments xs ys pr.1 pr.2

theorem seg_self (a l h : ℚ) : seg a a l h = 0 := by
  have h1 : min a h ≤ a := min_le_left a h
  have h2 : a ≤ max a l := le_max_left a l
  have : min a h - max a l ≤ 0 := by linarith
  simpa [seg] using max_eq_left this

theorem seg_add {x y z : ℚ} (l h : ℚ) (hxy : x ≤ y) (hyz : y ≤ z) :
    seg x y l h + seg y z l h = seg x z l h := by
  simp only [seg, max_def, min_def]
  split_ifs <;> linarith

theorem chain_le_getLastD (b : ℚ) (rs : List ℚ)
    (h : List.Chain' (· ≤ ·) (b :: rs)) : b ≤ rs.getLastD b := by
  induction rs generalizing b with
  | nil => exact le_refl b
  | cons c rs' ih =>
    obtain ⟨hbc, hch⟩ := List.chain'_cons.mp h
    calc b ≤ c := hbc
      _ ≤ rs'.getLastD c := ih c hch
      _ = (c :: rs').getLastD b := (List.getLastD_cons b c rs').symm

theorem segs_sum (l h a : ℚ) (rest : List ℚ)
    (hch : List.Chain' (· ≤ ·) (a :: rest)) :
    ((segments (a :: rest)).map (fun s => seg s.1 s.2 l h)).sum =
      seg a (rest.getLastD a) l h := by
  induction rest generalizing a with
  | nil => simpa [segments] using (seg_self a l h).symm
  | cons b rs ih =>
    obtain ⟨hab, hch'⟩ := List.chain'_cons.mp hch
    have hstep : segments (a :: b :: rs) = (a, b) :: segments (b :: rs) := rfl
    rw [hstep, List.map_cons, List.sum_cons, ih b hch', List.getLastD_cons]
    exact seg_add l h hab (chain_le_getLastD b rs hch')

theorem sum_map_mul_const {β : Type} (l : List β) (c : ℚ) (g : β → ℚ) :
    (l.map (fun b => c * g b)).sum = c * (l.map g).sum := by
  induction l with
  | nil => simp
  | cons b bs ih => simp [ih, mul_add]

theorem sum_flatMap_mul {α β : Type} (l1 : List α) (l2 : List β)
    (g : α → ℚ) (h : β → ℚ) :
    (l1.flatMap (fun a => l2.map (fun b => g a * h b))).sum =
      (l1.map g).sum * (l2.map h).sum := by
  induction l1 with
  | nil => simp
  | cons a as ih =>
    rw [List.flatMap_cons, List.sum_append, ih, sum_map_mul_const, List.map_cons,
      List.sum_cons, add_mul]

theorem sum_filter_area (l : List (Fragment ρ)) :
    ((l.filter (fun f => f.area ≠ 0)).map (fun f => f.area)).sum =
      (l.map (fun f => f.area)).sum := by
  induction l with
  | nil => rfl
  | cons f fs ih =>
    rw [List.filter_cons]
    by_cases h : f.area = 0
    · rw [if_neg (by simp [h]), List.map_cons, List.sum_cons, ih, h, zero_add]
    · rw [if_pos (by simp [h]), List.map_cons, List.map_cons, List.sum_cons,
        List.sum_cons, ih]

theorem enumFrom_map_snd {α β : Type} (G : α → β) (l : List α) (k : ℕ) :
    (l.enumFrom k).map (fun p => G p.2) = l.map G := by
  induction l generalizing k with
  | nil => rfl
  | cons a as ih => simp [List.enumFrom, ih]

theorem enum_map_snd {α β : Type} (G : α → β) (l : List α) :
    l.enum.map (fun p => G p.2) = l.map G :=
  enumFrom_map_snd G l 0

theorem regionFragments_region (xs ys : List ℚ) (name : ρ) (R : Rect) :
    ∀ f ∈ regionFragments xs ys name R, f.region = name := by
  intro f hf
  have hf' := List.mem_of_mem_filter hf
  obtain ⟨iy, _, hmem⟩ := List.mem_flatMap.mp hf'
  obtain ⟨jx, _, rfl⟩ := List.mem_map.mp hmem
  rfl

theorem regionFragments_sum (xs ys : List ℚ) (name : ρ) (R : Rect) :
    ((regionFragments xs ys name R).map (fun f => f.area)).sum =
      ((segments ys).map (fun s => seg s.1 s.2 R.y0 R.y1)).sum *
        ((segments xs).map (fun s => seg s.1 s.2 R.x0 R.x1)).sum := by
  unfold regionFragments
  rw [sum_filter_area, List.map_flatMap]
  have hb : ∀ iy : ℕ × ℚ × ℚ,
      (((segments xs).enum.map fun jx =>
        (⟨iy.1 * (segments xs).length + jx.1, name,
          seg iy.2.1 iy.2.2 R.y0 R.y1 * seg jx.2.1 jx.2.2 R.x0 R.x1⟩ : Fragment ρ)).map
            (fun f => f.area)) =
      (segments xs).enum.map fun jx =>
        seg iy.2.1 iy.2.2 R.y0 R.y1 * seg jx.2.1 jx.2.2 R.x0 R.x1 := by
    intro iy
    rw [List.map_map]
    rfl
  calc ((segments ys).enum.flatMap fun iy =>
        (((segments xs).enum.map fun jx =>
          (⟨iy.1 * (segments xs).length + jx.1, name,
            seg iy.2.1 iy.2.2 R.y0 R.y1 * seg jx.2.1 jx.2.2 R.x0 R.x1⟩ : Fragment ρ)).map
              (fun f => f.area))).sum
      = ((segments ys).enum.flatMap fun iy =>
          (segments xs).enum.map fun jx =>
            seg iy.2.1 iy.2.2 R.y0 R.y1 * seg jx.2.1 jx.2.2 R.x0 R.x1).sum := by
        refine congrArg _ (congrArg _ (funext fun iy => hb iy))
    _ = (((segments ys).enum.map fun iy => seg iy.2.1 iy.2.2 R.y0 R.y1).sum) *
          (((segments xs).enum.map fun jx => seg jx.2.1 jx.2.2 R.x0 R.x1).sum) :=
        sum_flatMap_mul _ _ _ _
    _ = ((segments ys).map (fun s => seg s.1 s.2 R.y0 R.y1)).sum *
          ((segments xs).map (fun s => seg s.1 s.2 R.x0 R.x1)).sum := by
        rw [enum_map_snd (fun s : ℚ × ℚ => seg s.1 s.2 R.y0 R.y1) (segments ys),
          enum_map_snd (fun s : ℚ × ℚ => seg s.1 s.2 R.x0 R.x1) (segments xs)]

theorem regionTotal_append (l1 l2 : List (Fragment ρ)) (r : ρ) :
    regionTotal (l1 ++ l2) r = regionTotal l1 r + regionTotal l2 r := by
  unfold regionTotal
  rw [List.filter_append, List.map_append, List.sum_append]

theorem regionTotal_of_ne (l : List (Fragment ρ)) (r : ρ)
    (h : ∀ f ∈ l, f.region ≠ r) : regionTotal l r = 0 := by
  unfold regionTotal
  rw [List.filter_eq_nil_iff.mpr (fun f hf => by simpa using h f hf)]
  rfl

theorem regionTotal_of_all (l : List (Fragment ρ)) (r : ρ)
    (h : ∀ f ∈ l, f.region = r) :
    regionTotal l r = (l.map (fun f => f.area)).sum := by
  unfold regionTotal
  rw [List.filter_eq_self.mpr (fun f hf => by simpa using h f hf)]

theorem overlayRect_total_of_none (xs ys : List ℚ) (regions : List (ρ × Rect))
    (r : ρ) (hnone : ∀ q ∈ regions, q.1 ≠ r) :
    regionTotal (overlayRect xs ys regions) r = 0 := by
  apply regionTotal_of_ne
  intro f hf
  obtain ⟨pr, hpr, hmem⟩ := List.mem_flatMap.mp hf
  rw [regionFragments_region xs ys pr.1 pr.2 f hmem]
  exact hnone pr hpr

theorem overlayRect_total (xs ys : List ℚ) (regions : List (ρ × Rect))
    (r : ρ) (R : Rect)
    (hr : regions.filter (fun pr => pr.1 = r) = [(r, R)]) :
    regionTotal (overlayRect xs ys regions) r =
      ((regionFragments xs ys r R).map (fun f => f.area)).sum := by
  induction regions with
  | nil => simp at hr
  | cons pr rest ih =>
    rw [List.filter_cons] at hr
    show regionTotal ((pr :: rest).flatMap (fun q => regionFragments xs ys q.1 q.2)) r = _
    rw [List.flatMap_cons, regionTotal_append]
    by_cases hpr : pr.1 = r
    · rw [if_pos (by simp [hpr])] at hr
      injection hr with h1 h2
      have hnone : ∀ q ∈ rest, q.1 ≠ r := by
        intro q hq
        have := List.filter_eq_nil_iff.mp h2 q hq
        simpa using this
      rw [show regionTotal (rest.flatMap fun q => regionFragments xs ys q.1 q.2) r = 0
        from overlayRect_total_of_none xs ys rest r hnone, add_zero, h1]
      exact regionTotal_of_all _ _ (regionFragments_region xs ys r R)
    · rw [if_neg (by simp [hpr])] at hr
      have h0 : regionTotal (regionFragments xs ys pr.1 pr.2) r = 0 :=
        regionTotal_of_ne _ _ (fun f hf => by
          rw [regionFragments_region xs ys pr.1 pr.2 f hf]; exact hpr)
      rw [h0, zero_add]
      exact ih hr

/-- C6: area conservation of the (spec-modelled) Overlay Engine.  For a
monotone rectilinear grid with x-bounds `x0 :: xrest` and y-bounds
`y0 :: yrest` and a region list in which `r` occurs exactly once with
rectangle `R`, the areas of all Overlay Fragments of `r` sum exactly to the
area of `R ∩ coverage` (the product of the two clamped interval overlaps
with the grid's bounding box), with no fragments fabricated outside
coverage; and when `R` lies fully inside the grid's coverage, that sum is
exactly `R`'s own area. -/
theorem overlay_area_conservation (xs ys : List ℚ) (regions : List (ρ × Rect))
    (r : ρ) (R : Rect) (x0 : ℚ) (xrest : List ℚ) (y0 : ℚ) (yrest : List ℚ)
    (hxs : xs = x0 :: xrest) (hys : ys = y0 :: yrest)
    (hxch : List.Chain' (· ≤ ·) xs) (hych : List.Chain' (· ≤ ·) ys)
    (hr : regions.filter (fun pr => pr.1 = r) = [(r, R)]) :
    regionTotal (overlayRect xs ys regions) r =
      seg y0 (yrest.getLastD y0) R.y0 R.y1 * seg x0 (xrest.getLastD x0) R.x0 R.x1 ∧
    (x0 ≤ R.x0 → R.x0 ≤ R.x1 → R.x1 ≤ xrest.getLastD x0 →
     y0 ≤ R.y0 → R.y0 ≤ R.y1 → R.y1 ≤ yrest.getLastD y0 →
     regionTotal (overlayRect xs ys regions) r =
       (R.y1 - R.y0) * (R.x1 - R.x0)) := by
  subst hxs hys
  have hmain : regionTotal (overlayRect (x0 :: xrest) (y0 :: yrest) regions) r =
      seg y0 (yrest.getLastD y0) R.y0 R.y1 *
        seg x0 (xrest.getLastD x0) R.x0 R.x1 := by
    rw [overlayRect_total _ _ _ _ _ hr, regionFragments_sum,
      segs_sum R.y0 R.y1 y0 yrest hych, segs_sum R.x0 R.x1 x0 xrest hxch]
  refine ⟨hmain, fun hx0 hxm hx1 hy0 hym hy1 => ?_⟩
  rw [hmain]
  have hsx : seg x0 (xrest.getLastD x0) R.x0 R.x1 = R.x1 - R.x0 := by
    unfold seg
    rw [min_eq_right hx1, max_eq_right hx0]
    exact max_eq_right (by linarith)
  have hsy : seg y0 (yrest.getLastD y0) R.y0 R.y1 = R.y1 - R.y0 := by
    unfold seg
    rw [min_eq_right hy1, max_eq_right hy0]
    exact max_eq_right (by linarith)
  rw [hsx, hsy]

/-- Witness for C6 on a concrete grid: the unit cell grid `[0,1] × [0,1]`
against the single region `[0, 1/2] × [0, 1]`, fully inside coverage: its
fragments sum to area 1/2. -/
theorem overlay_area_conservation_witness :
    regionTotal (overlayRect [0, 1] [0, 1] [(0, (⟨0, 1/2, 0, 1⟩ : Rect))]) 0 =
      seg 0 (([1] : List ℚ).getLastD 0) (0 : ℚ) 1 *
        seg 0 (([1] : List ℚ).getLastD 0) (0 : ℚ) (1/2) ∧
    regionTotal (overlayRect [0, 1] [0, 1] [(0, (⟨0, 1/2, 0, 1⟩ : Rect))]) 0 =
      ((1 : ℚ) - 0) * ((1/2 : ℚ) - 0) := by
  have h := overlay_area_conservation [0, 1] [0, 1]
    [(0, (⟨0, 1/2, 0, 1⟩ : Rect))] 0 ⟨0, 1/2, 0, 1⟩ 0 [1] 0 [1] rfl rfl
    (by norm_num [List.chain'_cons, List.chain'_singleton])
    (by norm_num [List.chain'_cons, List.chain'_singleton])
    (by norm_num)
  exact ⟨h.1, h.2 (by norm_num) (by norm_num) (by norm_num)
    (by norm_num) (by norm_num) (by norm_num)⟩

/-! ## End-to-end demo scenario (spec §8)

A 4×4 uniform grid of 1×1 cells covering `[0,4] × [0,4]`, fully covered by
the two equal 4×2 rectangular regions "left" (`x ∈ [0,2]`) and "right"
(`x ∈ [2,4]`), regridding a data array with value 10 everywhere. -/

/-- The demo grid's per-axis bounds `[0, 1, 2, 3, 4]`. -/
def demoBounds : List ℚ := [0, 1, 2, 3, 4]

/-- The two demo regions "left" and "right". -/
def demoRegions : List (String × Rect) :=
  [("left", ⟨0, 2, 0, 4⟩), ("right", ⟨2, 4, 0, 4⟩)]

/-- The demo overlay fragments. -/
def demoFrags : List (Fragment String) := overlayRect demoBounds demoBounds demoRegions

/-- The demo Weight Entries. -/
def demoEntries : List (WeightEntry String) := grid_cell_fraction demoFrags

/-- The demo sparse Weight Matrix; its region axis, derived from the
entries, is ["left", "right"]. -/
def demoW : NDArray := weightsNDArray demoEntries 4 4

/-- The demo data: value 10 at every cell of an `(n, 4, 4)` array. -/
def demoData (n : ℕ) : NDArray := ⟨[n, 4, 4], fun _ => 10⟩

theorem demoFrags_eval : demoFrags =
    [⟨0, "left", 1⟩, ⟨1, "left", 1⟩, ⟨4, "left", 1⟩, ⟨5, "left", 1⟩,
     ⟨8, "left", 1⟩, ⟨9, "left", 1⟩, ⟨12, "left", 1⟩, ⟨13, "left", 1⟩,
     ⟨2, "right", 1⟩, ⟨3, "right", 1⟩, ⟨6, "right", 1⟩, ⟨7, "right", 1⟩,
     ⟨10, "right", 1⟩, ⟨11, "right", 1⟩, ⟨14, "right", 1⟩, ⟨15, "right", 1⟩] := by
  norm_num [demoFrags, overlayRect, regionFragments, demoBounds, demoRegions,
    segments, seg, List.enum, List.enumFrom, List.filter_cons, max_def, min_def]

theorem demoEntries_eval : demoEntries =
    [⟨0, "left", 1/8⟩, ⟨1, "left", 1/8⟩, ⟨4, "left", 1/8⟩, ⟨5, "left", 1/8⟩,
     ⟨8, "left", 1/8⟩, ⟨9, "left", 1/8⟩, ⟨12, "left", 1/8⟩, ⟨13, "left", 1/8⟩,
     ⟨2, "right", 1/8⟩, ⟨3, "right", 1/8⟩, ⟨6, "right", 1/8⟩, ⟨7, "right", 1/8⟩,
     ⟨10, "right", 1/8⟩, ⟨11, "right", 1/8⟩, ⟨14, "right", 1/8⟩,
     ⟨15, "right", 1/8⟩] := by
  rw [demoEntries, grid_cell_fraction, demoFrags_eval]
  simp [regionTotal, List.filter_cons]
  norm_num

theorem demoLabels_eval : regionLabels demoEntries = ["left", "right"] := by
  rw [demoEntries_eval]
  simp [regionLabels]

theorem demoW_shape : demoW.shape = [4, 4, 2] := by
  simp [demoW, weightsNDArray, demoLabels_eval]

theorem demo_colsum_left :
    (∑ c in Finset.range 16, demoW.flat (c * 2 + 0)) = 1 := by
  simp only [demoW, weightsNDArray, demoEntries_eval]
  simp [Finset.sum_range_succ, weightOf, List.filter_cons, regionLabels]
  norm_num

theorem demo_colsum_right :
    (∑ c in Finset.range 16, demoW.flat (c * 2 + 1)) = 1 := by
  simp only [demoW, weightsNDArray, demoEntries_eval]
  simp [Finset.sum_range_succ, weightOf, List.filter_cons, regionLabels]
  norm_num

/-- C7: the end-to-end demo.  Every cell of the left half carries weight 1/8
for region "left" and 0 for region "right"; both Weight Matrix columns sum
to 1; and regridding the constant-10 data array yields exactly 10 for both
regions at every time step. -/
theorem end_to_end_demo :
    (∀ i : Fin 4, ∀ j : Fin 2,
      weightOf demoEntries (i.1 * 4 + j.1) "left" = 1/8 ∧
      weightOf demoEntries (i.1 * 4 + j.1) "right" = 0) ∧
    ((∑ c in Finset.range 16, demoW.flat (c * 2 + 0)) = 1 ∧
     (∑ c in Finset.range 16, demoW.flat (c * 2 + 1)) = 1) ∧
    (∀ n t : ℕ, ∃ out,
      apply_weights_matmul_sparse demoW (demoData n) = some out ∧
      out.shape = [n, 2] ∧
      out.flat (t * 2 + 0) = 10 ∧ out.flat (t * 2 + 1) = 10) := by
  refine ⟨?_, ⟨demo_colsum_left, demo_colsum_right⟩, ?_⟩
  · intro i j
    fin_cases i <;> fin_cases j <;>
      constructor <;>
        (simp [demoEntries_eval, weightOf, List.filter_cons]; try norm_num)
  · intro n t
    refine ⟨⟨[n, 2], fun i => ∑ cc in Finset.range (4 * 4),
      (demoData n).flat (i / 2 * (4 * 4) + cc) *
        demoW.flat (cc * 2 + i % 2)⟩,
      apply_weights_eval demoW (demoData n) n 4 4 4 4 2 rfl demoW_shape rfl,
      rfl, ?_, ?_⟩
    · show (∑ cc in Finset.range (4 * 4),
        (demoData n).flat ((t * 2 + 0) / 2 * (4 * 4) + cc) *
          demoW.flat (cc * 2 + (t * 2 + 0) % 2)) = 10
      rw [flat_index_mod (show 0 < 2 by norm_num)]
      simp only [demoData]
      rw [← Finset.mul_sum]
      rw [show (4 * 4 : ℕ) = 16 from rfl, demo_colsum_left]
      norm_num
    · show (∑ cc in Finset.range (4 * 4),
        (demoData n).flat ((t * 2 + 1) / 2 * (4 * 4) + cc) *
          demoW.flat (cc * 2 + (t * 2 + 1) % 2)) = 10
      rw [flat_index_mod (show 1 < 2 by norm_num)]
      simp only [demoData]
      rw [← Finset.mul_sum]
      rw [show (4 * 4 : ℕ) = 16 from rfl, demo_colsum_right]
      norm_num

end HyTest
